import Mathlib

/-!
Verification development for the core of a generic ASN.1 codec library:
the format-agnostic decode contract with its blanket implementations
(src/de.rs), the bit-packed (PER) encoder engine (src/per/enc.rs), its
error type (src/per/enc/error.rs), and the per-ruleset entry points
(src/uper.rs).

Pure fragments of the Rust source are embedded as Lean functions over
explicit state; `&mut self` methods become functions returning the new
state.  Rust `Result` becomes `Except`; a Rust panic (`todo!()`) is made
observable through the `RustOutcome.panic` constructor.  Engine pieces
whose implementation is absent from the visible sources (the `per::de`
decoder module, and encoder bodies that are `todo!()`) are modelled from
the specification and carry a doc comment starting `Modelled from the
spec:`.
-/

namespace Rasn

/-- Modelled from the spec: `crate::tag` is not among the visible sources.
Spec section 3: a tag class is one of Universal, Application,
ContextSpecific, Private. -/
inductive TagClass where
  | universal
  | application
  | contextSpecific
  | priv
deriving DecidableEq, Repr

/-- Modelled from the spec: `crate::tag::Tag` is not among the visible
sources.  Spec section 3: a tag is a `(class, number)` pair, immutable
once constructed. -/
structure Tag where
  tagClass : TagClass
  number : Nat
deriving DecidableEq, Repr

/-- The outcome of running a Rust function: a success, a typed error, or
an uncatchable panic (as produced by `todo!()`). -/
inductive RustOutcome (ε α : Type) where
  | ok : α → RustOutcome ε α
  | err : ε → RustOutcome ε α
  | panic : String → RustOutcome ε α

/-- Modelled from the spec: section 4.4, non-negative binary integer
packing, most-significant bit first, in exactly `w` bits.  The source
body of `Encoder::encode_non_negative_binary_integer` is `todo!()`. -/
def toBits : Nat → Nat → List Bool
  | 0, _ => []
  | w + 1, v => decide (v / 2 ^ w % 2 = 1) :: toBits w (v % 2 ^ w)

/-- The numeric value of a most-significant-bit-first bit list. -/
def fromBits : List Bool → Nat
  | [] => 0
  | b :: bs => (if b then 2 ^ bs.length else 0) + fromBits bs

/-- Modelled from the spec: the bit-level read primitive mirroring
`toBits`; the `per::de` decoder module is absent from the visible
sources. -/
def readBits (w : Nat) (input : List Bool) : Option (Nat × List Bool) :=
  if w ≤ input.length then some (fromBits (input.take w), input.drop w)
  else none

/-! ## The bit-packed encoder engine (src/per/enc.rs, src/per/enc/error.rs) -/

namespace PerEnc

/-- From the source: `pub struct Error;` — the unit error struct of the
bit-packed encoder (src/per/enc/error.rs). -/
structure Error where
deriving DecidableEq, Repr

/-- From the source: `pub struct Encoder { output: types::BitString }`;
the bit string is embedded as a list of bits. -/
structure Encoder where
  output : List Bool
deriving DecidableEq, Repr

/-- From the source: `fn encode_length(&mut self, length: usize) { }` —
the body is empty, so no bits are emitted for any count. -/
def encode_length (e : Encoder) (_length : Nat) : Encoder := e

/-- One byte rendered as its eight bits, most significant first, as
`BitString::extend` does for byte input. -/
def byteToBits (b : Nat) : List Bool := Rasn.toBits 8 (b % 256)

/-- From the source: `fn extend(&mut self, input)` — appends the input
bits (here: of a byte sequence) to the output bit string. -/
def extendBytes (e : Encoder) (bytes : List Nat) : Encoder :=
  { output := e.output ++ bytes.flatMap byteToBits }

/-- From the source: `types::Any` — a raw byte span. -/
structure AnyValue where
  contents : List Nat
deriving DecidableEq, Repr

/-- From the source: `fn encode_any` — encodes the length of the
contents (a no-op, see `encode_length`) and then the raw contents. -/
def encode_any (e : Encoder) (value : AnyValue) : Except Error Encoder :=
  .ok (extendBytes (encode_length e value.contents.length) value.contents)

/-- From the source: `fn encode_bool(&mut self, _: Tag, value: bool)` —
pushes one bit equal to `value` and succeeds; the tag is ignored. -/
def encode_bool (e : Encoder) (_tag : Tag) (value : Bool) : Except Error Encoder :=
  .ok { output := e.output ++ [value] }

/-- From the source: the body of `fn encode_integer` is `todo!()`, which
panics unconditionally. -/
def encode_integer_stub (_e : Encoder) (_tag : Tag) (_value : Int) :
    RustOutcome Error Encoder :=
  .panic "not yet implemented"

/-- From the source: `impl crate::enc::Error for Error` — the body of
`fn custom` is `todo!()`, which panics instead of returning an error
instance. -/
def errorCustom (_msg : String) : RustOutcome Empty Error :=
  .panic "not yet implemented"

/-- Modelled from the spec: section 4.4 constrained integer encoding;
`bits = ceil(log2(hi - lo + 1))`.  `Nat.clog 2` is the ceiling
base-2 logarithm. -/
def intWidth (lo hi : Int) : Nat := Nat.clog 2 (hi - lo + 1).toNat

/-- Modelled from the spec: section 4.4 constrained integer encoding,
`value - lo` in exactly `intWidth lo hi` bits, most significant first.
The source body of `Encoder::encode_integer` is `todo!()`. -/
def encodeConstrainedInteger (lo hi x : Int) : List Bool :=
  Rasn.toBits (intWidth lo hi) (x - lo).toNat

/-- Modelled from the spec: the engine operation appending a constrained
integer encoding to the output (constraints supplied at the call site,
spec section 3). -/
def encode_integer_model (e : Encoder) (_tag : Tag) (lo hi x : Int) : Encoder :=
  { output := e.output ++ encodeConstrainedInteger lo hi x }

end PerEnc

/-! ## Entry points (src/uper.rs) -/

namespace Uper

/-- From the source: the body of `uper::decode` is `todo!()`, which
panics unconditionally for every input and every target type. -/
def decodeStub (ε α : Type) (_input : List Nat) : RustOutcome ε α :=
  .panic "not yet implemented"

/-- From the source: the body of `uper::encode` is `todo!()`, which
panics unconditionally for every value. -/
def encodeStub (ε α : Type) (_value : α) : RustOutcome ε (List Nat) :=
  .panic "not yet implemented"

end Uper

/-! ## Blanket decode implementations (src/de.rs)

The Rust blanket implementations are generic over `D: Decoder`; the
embedding is likewise parameterized by the decoder operations they
invoke, as functions over an abstract decoder state `σ`.  `peek_tag`
takes `&self` in the source, so its embedding cannot change the
state. -/

/-- From the source: `decoder.peek_tag().map_or(false, |t| t == tag)` —
the guard of the blanket `Option<D>` decode. -/
def peekMatches {σ ε : Type} (peek : σ → Except ε Tag) (s : σ) (tag : Tag) : Bool :=
  match peek s with
  | .ok t => decide (t = tag)
  | .error _ => false

/-- From the source: `impl<D: Decode> Decode for Option<D>` — if the
peeked tag matches, decode `D` and wrap in `Some`; otherwise return
`Ok(None)` with the state untouched. -/
def optionDecodeWithTag {σ ε α : Type} (peek : σ → Except ε Tag)
    (dec : σ → Tag → Except ε (α × σ)) (s : σ) (tag : Tag) :
    Except ε (Option α × σ) :=
  if peekMatches peek s tag then
    match dec s tag with
    | .ok (v, s') => .ok (some v, s')
    | .error e => .error e
  else
    .ok (none, s)

/-- From the source: the `impl_integers!` blanket — decode an
unconstrained arbitrary-precision integer via the engine, then narrow it
into the fixed-width target whose range is `[tlo, thi]`; a failed
narrowing becomes `Error::custom` of the display of
`TryFromIntError`. -/
def intDecodeWithTag {σ ε : Type} (custom : String → ε)
    (decodeInteger : σ → Tag → Except ε (Int × σ))
    (tlo thi : Int) (s : σ) (tag : Tag) : Except ε (Int × σ) :=
  match decodeInteger s tag with
  | .error e => .error e
  | .ok (n, s') =>
    if tlo ≤ n ∧ n ≤ thi then .ok (n, s')
    else .error (custom "out of range integral type conversion attempted")

/-- From the source: `types::Open` — an undecoded value carrying its own
discovered tag and raw contents. -/
structure OpenValue where
  tag : Tag
  contents : List Nat
deriving DecidableEq, Repr

/-- The decoder operations used by the `BTreeMap<Tag, Open>` blanket
decode: `decode_sequence` (returning the sub-decoder for the scope and
the advanced outer state) and `<Open as Decode>::decode` on the
sub-decoder.  The per-format implementations of both are absent from the
visible sources, so they stay abstract.  `size`/`shrink` record the
modelling assumption that a successful open-value decode consumes input,
which makes the source's `while let Ok(..)` loop terminate. -/
structure OpenDecoder (σ ε : Type) where
  decodeSequence : σ → Tag → Except ε (σ × σ)
  openDecode : σ → Except ε (OpenValue × σ)
  size : σ → Nat
  shrink : ∀ s v s', openDecode s = .ok (v, s') → size s' < size s

/-- `BTreeMap::insert` on the association-list rendering of the map:
replace the value at an existing key, otherwise add the binding. -/
def tagMapInsert (m : List (Tag × OpenValue)) (k : Tag) (v : OpenValue) :
    List (Tag × OpenValue) :=
  match m with
  | [] => [(k, v)]
  | (k', v') :: rest =>
    if k = k' then (k, v) :: rest else (k', v') :: tagMapInsert rest k v

/-- From the source: the `while let Ok(value) = Open::decode(&mut decoder)`
loop — keep decoding open values and inserting them under their own tag;
the first failed decode ends the loop with the map built so far.  Fuel
bounds the iteration count; `OpenDecoder.shrink` guarantees that
`size s + 1` fuel is never exhausted before a failure. -/
def decodeOpenLoop {σ ε : Type} (I : OpenDecoder σ ε) :
    Nat → σ → List (Tag × OpenValue) → List (Tag × OpenValue) × σ
  | 0, s, m => (m, s)
  | fuel + 1, s, m =>
    match I.openDecode s with
    | .error _ => (m, s)
    | .ok (v, s') => decodeOpenLoop I fuel s' (tagMapInsert m v.tag v)

/-- From the source: `impl Decode for BTreeMap<Tag, Open>` — enter a
SEQUENCE scope, run the open-value loop on the sub-decoder, and return
the accumulated map as a success. -/
def btreeMapDecodeWithTag {σ ε : Type} (I : OpenDecoder σ ε) (s : σ) (tag : Tag) :
    Except ε (List (Tag × OpenValue) × σ) :=
  match I.decodeSequence s tag with
  | .error e => .error e
  | .ok (sub, s') => .ok ((decodeOpenLoop I (I.size sub + 1) sub []).1, s')

/-! ## Spec-modelled bit-packed ruleset over a core value universe

The `per::de` decoder module and most `per::enc` bodies are absent from
the visible sources (`todo!()` or commented out), so the ruleset itself
is modelled from spec sections 4.4 and 8: booleans pack to one bit,
constrained integers to `ceil(log2(hi - lo + 1))` bits of `value - lo`,
and a SEQUENCE is the concatenation of its fields with no framing.  PER
carries no tags, so decoding is driven by the same schema (type shape
plus call-site constraints) the encoder used. -/

/-- Modelled from the spec: the schema (type shape with call-site
constraints, spec section 3) that drives PER encoding and decoding. -/
inductive Schema where
  | boolean : Schema
  | integer (lo hi : Int) : Schema
  | sequence (fields : List Schema) : Schema

/-- Modelled from the spec: the core value universe — boolean,
arbitrary-precision integer, ordered sequence of values. -/
inductive Value where
  | boolean (b : Bool) : Value
  | integer (x : Int) : Value
  | sequence (fields : List Value) : Value

/-- A value conforms to a schema: matching shape, integers within the
declared bounds, fields conforming pointwise. -/
inductive Conforms : Schema → Value → Prop where
  | boolean (b : Bool) : Conforms .boolean (.boolean b)
  | integer {lo hi x : Int} : lo ≤ x → x ≤ hi →
      Conforms (.integer lo hi) (.integer x)
  | nilSeq : Conforms (.sequence []) (.sequence [])
  | consSeq {s : Schema} {ss : List Schema} {v : Value} {vs : List Value} :
      Conforms s v → Conforms (.sequence ss) (.sequence vs) →
      Conforms (.sequence (s :: ss)) (.sequence (v :: vs))

mutual

/-- Modelled from the spec: the unaligned bit-packed encoding of one
value under its schema (spec section 4.4). -/
def encodeValue : Schema → Value → List Bool
  | .boolean, .boolean b => [b]
  | .integer lo hi, .integer x => PerEnc.encodeConstrainedInteger lo hi x
  | .sequence ss, .sequence vs => encodeFields ss vs
  | .boolean, _ => []
  | .integer _ _, _ => []
  | .sequence _, _ => []

/-- Modelled from the spec: SEQUENCE fields are encoded back to back
with no per-field framing. -/
def encodeFields : List Schema → List Value → List Bool
  | s :: ss, v :: vs => encodeValue s v ++ encodeFields ss vs
  | _, _ => []

end

mutual

/-- Modelled from the spec: the unaligned bit-packed decoding of one
value, driven by the schema; returns the value and the unconsumed
bits. -/
def decodeValue : Schema → List Bool → Option (Value × List Bool)
  | .boolean, input =>
    match input with
    | b :: rest => some (.boolean b, rest)
    | [] => none
  | .integer lo hi, input =>
    match readBits (PerEnc.intWidth lo hi) input with
    | some (n, rest) => some (.integer (lo + (n : Int)), rest)
    | none => none
  | .sequence ss, input =>
    match decodeFields ss input with
    | some (vs, rest) => some (.sequence vs, rest)
    | none => none

/-- Modelled from the spec: SEQUENCE fields are decoded one after
another in declaration order. -/
def decodeFields : List Schema → List Bool → Option (List Value × List Bool)
  | [], input => some ([], input)
  | s :: ss, input =>
    match decodeValue s input with
    | some (v, rest) =>
      match decodeFields ss rest with
      | some (vs, rest') => some (v :: vs, rest')
      | none => none
    | none => none

end

/-- Modelled from the spec: the `uper::encode` entry point — encode the
value and pad the final partial byte with zero bits (the source body is
`todo!()`). -/
def encodeEntry (s : Schema) (v : Value) : List Bool :=
  encodeValue s v ++
    List.replicate ((8 - (encodeValue s v).length % 8) % 8) false

/-- Modelled from the spec: the `uper::decode` entry point — decode one
value and ignore the trailing padding bits (the source body is
`todo!()`). -/
def decodeEntry (s : Schema) (input : List Bool) : Option Value :=
  match decodeValue s input with
  | some (v, _) => some v
  | none => none

/-- A concrete `OpenDecoder` instance used to exercise the map-decode
loop: the state counts how many open values are still available; each
successful decode yields a context-specific tag and consumes one. -/
def demoOpenDecoder : OpenDecoder Nat Unit where
  decodeSequence := fun s _ => .ok (s, 0)
  openDecode := fun s =>
    match s with
    | 0 => .error ()
    | n + 1 => .ok (⟨⟨.contextSpecific, n⟩, []⟩, n)
  size := fun s => s
  shrink := by
    intro s v s' h
    cases s with
    | zero => exact absurd h (by simp)
    | succ n =>
      simp only [Except.ok.injEq, Prod.mk.injEq] at h
      rcases h with ⟨-, h4⟩
      show s' < n + 1
      omega

/-- A sample tag for concrete instantiations. -/
def sampleTag : Tag := ⟨.contextSpecific, 0⟩

/-- A sample `peek_tag` over a unit decoder state that always sees
`sampleTag`. -/
def samplePeekOk : Unit → Except Unit Tag := fun _ => .ok sampleTag

/-- A sample `peek_tag` over a unit decoder state that always fails. -/
def samplePeekErr : Unit → Except Unit Tag := fun _ => .error ()

/-- A sample element decode over a unit decoder state that always
yields `true`. -/
def sampleBoolDecode : Unit → Tag → Except Unit (Bool × Unit) :=
  fun _ _ => .ok (true, ())

/-- A sample engine `decode_integer` over a unit decoder state that
always yields the arbitrary-precision integer 300. -/
def sampleIntDecode : Unit → Tag → Except String (Int × Unit) :=
  fun _ _ => .ok (300, ())

/-! ## Theorems

Helper lemmas first, then one theorem per spec claim (with a closed
witness instance wherever the claim theorem carries hypotheses). -/

theorem toBits_length (w v : Nat) : (toBits w v).length = w := by
  induction w generalizing v with
  | zero => rfl
  | succ w ih => simp [toBits, ih]

theorem fromBits_toBits (w v : Nat) (h : v < 2 ^ w) :
    fromBits (toBits w v) = v := by
  induction w generalizing v with
  | zero =>
    simp [toBits, fromBits]
    omega
  | succ w ih =>
    have hpos : 0 < 2 ^ w := Nat.pos_pow_of_pos w (by omega)
    have hmod : v % 2 ^ w < 2 ^ w := Nat.mod_lt _ hpos
    have hsplit : 2 ^ w * (v / 2 ^ w) + v % 2 ^ w = v := Nat.div_add_mod v (2 ^ w)
    have hdiv : v / 2 ^ w < 2 := by
      rw [Nat.div_lt_iff_lt_mul hpos]
      calc v < 2 ^ (w + 1) := h
        _ = 2 * 2 ^ w := by ring
    simp only [toBits, fromBits, toBits_length, ih _ hmod]
    generalize hq : v / 2 ^ w = q at hdiv hsplit ⊢
    have hq01 : q = 0 ∨ q = 1 := by omega
    rcases hq01 with h0 | h1
    · rw [h0] at hsplit
      simp [h0]
      omega
    · rw [h1] at hsplit
      simp [h1]
      omega

theorem readBits_append (w v : Nat) (rest : List Bool) (h : v < 2 ^ w) :
    readBits w (toBits w v ++ rest) = some (v, rest) := by
  have hlen := toBits_length w v
  have htake : (toBits w v ++ rest).take w = toBits w v := List.take_left' hlen
  have hdrop : (toBits w v ++ rest).drop w = rest := List.drop_left' hlen
  simp [readBits, hlen, htake, hdrop, fromBits_toBits w v h]

theorem sub_toNat_lt_pow_intWidth {lo hi x : Int} (hlo : lo ≤ x) (hhi : x ≤ hi) :
    (x - lo).toNat < 2 ^ PerEnc.intWidth lo hi := by
  have h1 : (x - lo).toNat < (hi - lo + 1).toNat := by omega
  exact lt_of_lt_of_le h1 (Nat.le_pow_clog one_lt_two _)

theorem decode_encode_aux {s : Schema} {v : Value} (h : Conforms s v) :
    ∀ rest, decodeValue s (encodeValue s v ++ rest) = some (v, rest) := by
  induction h with
  | boolean b =>
    intro rest
    simp [encodeValue, decodeValue]
  | @integer lo hi x hlo hhi =>
    intro rest
    have hx : lo + (((x - lo).toNat : Nat) : Int) = x := by omega
    simp only [encodeValue, decodeValue, PerEnc.encodeConstrainedInteger,
      readBits_append _ _ _ (sub_toNat_lt_pow_intWidth hlo hhi), hx]
  | nilSeq =>
    intro rest
    simp [encodeValue, encodeFields, decodeValue, decodeFields]
  | @consSeq sc ss v vs h1 h2 ih1 ih2 =>
    intro rest
    have hfields : ∀ r, decodeFields ss (encodeFields ss vs ++ r) = some (vs, r) := by
      intro r
      have hsv := ih2 r
      simp only [encodeValue, decodeValue] at hsv
      cases hd : decodeFields ss (encodeFields ss vs ++ r) with
      | none => rw [hd] at hsv; simp at hsv
      | some p =>
        obtain ⟨a, b⟩ := p
        rw [hd] at hsv
        simp only [Option.some.injEq, Prod.mk.injEq, Value.sequence.injEq] at hsv
        rw [hsv.1, hsv.2]
    have hcat : encodeValue sc v ++ encodeFields ss vs ++ rest
        = encodeValue sc v ++ (encodeFields ss vs ++ rest) := List.append_assoc _ _ _
    simp only [encodeValue, encodeFields, decodeValue, decodeFields, hcat,
      ih1 (encodeFields ss vs ++ rest), hfields rest]

/-- Claim C1: for every supported value of the modelled bit-packed
ruleset (a value conforming to its schema), decoding the output of
encoding yields the value again: `decode(encode(v)) = v`. -/
theorem uper_roundtrip (s : Schema) (v : Value) (h : Conforms s v) :
    decodeEntry s (encodeEntry s v) = some v := by
  simp [decodeEntry, encodeEntry, decode_encode_aux h]

/-- Witness for C1: a SEQUENCE of a boolean and a `[0,7]`-constrained
integer round-trips through the modelled ruleset. -/
theorem uper_roundtrip_witness :
    decodeEntry (.sequence [.boolean, .integer 0 7])
        (encodeEntry (.sequence [.boolean, .integer 0 7])
          (.sequence [.boolean true, .integer 5]))
      = some (.sequence [.boolean true, .integer 5]) :=
  uper_roundtrip _ _ (Conforms.consSeq (Conforms.boolean true)
    (Conforms.consSeq (Conforms.integer (by decide) (by decide)) Conforms.nilSeq))

/-- Claim C2: when the lookahead succeeds, the blanket `Option<T>`
decode decodes `T` and wraps it in `Some` if the peeked tag equals
the expected tag, and otherwise returns `Ok(None)` with the decoder
state (hence the input position) unchanged. -/
theorem option_decode_lookahead {σ ε α : Type} (peek : σ → Except ε Tag)
    (dec : σ → Tag → Except ε (α × σ)) (s : σ) (tag t : Tag)
    (h : peek s = .ok t) :
    optionDecodeWithTag peek dec s tag =
      if t = tag then Except.map (fun p => (some p.1, p.2)) (dec s tag)
      else .ok (none, s) := by
  by_cases ht : t = tag
  · simp only [optionDecodeWithTag, peekMatches, h, ht]
    simp only [if_true]
    cases hd : dec s tag with
    | ok p =>
      obtain ⟨a, b⟩ := p
      simp [Except.map, hd]
    | error e => simp [Except.map, hd]
  · simp [optionDecodeWithTag, peekMatches, h, ht]

/-- Witness for C2: with a unit-state decoder whose lookahead sees
`sampleTag`, decoding `Option<bool>` against `sampleTag` yields the
decoded boolean wrapped in `Some`. -/
theorem option_decode_lookahead_witness :
    optionDecodeWithTag samplePeekOk sampleBoolDecode () sampleTag =
      if sampleTag = sampleTag then
        Except.map (fun p => (some p.1, p.2)) (sampleBoolDecode () sampleTag)
      else .ok (none, ()) :=
  option_decode_lookahead samplePeekOk sampleBoolDecode () sampleTag sampleTag rfl

/-- Claim C3: under finite bounds `lo ≤ hi`, the (spec-modelled)
`encode_integer` appends exactly `ceil(log2(hi - lo + 1))` bits whose
most-significant-bit-first value is `x - lo`, and appends zero bits
when `lo = hi`. -/
theorem encode_integer_constrained_width (e : PerEnc.Encoder) (tag : Tag)
    (lo hi x : Int) (hlo : lo ≤ x) (hhi : x ≤ hi) :
    (PerEnc.encode_integer_model e tag lo hi x).output
        = e.output ++ PerEnc.encodeConstrainedInteger lo hi x
    ∧ (PerEnc.encodeConstrainedInteger lo hi x).length
        = Nat.clog 2 (hi - lo + 1).toNat
    ∧ fromBits (PerEnc.encodeConstrainedInteger lo hi x) = (x - lo).toNat
    ∧ (PerEnc.encodeConstrainedInteger lo lo lo).length = 0 := by
  refine ⟨rfl, ?_, ?_, ?_⟩
  · simp [PerEnc.encodeConstrainedInteger, PerEnc.intWidth, toBits_length]
  · exact fromBits_toBits _ _ (sub_toNat_lt_pow_intWidth hlo hhi)
  · have h1 : ((lo : Int) - lo + 1).toNat = 1 := by omega
    simp [PerEnc.encodeConstrainedInteger, PerEnc.intWidth, toBits_length, h1]

/-- Witness for C3: encoding 5 under the bounds `[0, 7]` emits exactly
3 bits of value 5. -/
theorem encode_integer_constrained_width_witness :
    (PerEnc.encode_integer_model ⟨[]⟩ sampleTag 0 7 5).output
        = [] ++ PerEnc.encodeConstrainedInteger 0 7 5
    ∧ (PerEnc.encodeConstrainedInteger 0 7 5).length
        = Nat.clog 2 ((7 : Int) - 0 + 1).toNat
    ∧ fromBits (PerEnc.encodeConstrainedInteger 0 7 5) = ((5 : Int) - 0).toNat
    ∧ (PerEnc.encodeConstrainedInteger 0 0 0).length = 0 :=
  encode_integer_constrained_width ⟨[]⟩ sampleTag 0 7 5 (by decide) (by decide)

/-- Claim C4 (code bug): the top-level `uper::decode` and `uper::encode`
entry points and the engine operation `encode_integer` do not return a
success or typed error — their bodies are `todo!()`, which panics
unconditionally on every input. -/
theorem todo_stubs_panic (ε α : Type) (input : List Nat) (value : α)
    (e : PerEnc.Encoder) (tag : Tag) (x : Int) :
    Uper.decodeStub ε α input = .panic "not yet implemented"
    ∧ Uper.encodeStub ε α value = .panic "not yet implemented"
    ∧ PerEnc.encode_integer_stub e tag x = .panic "not yet implemented" :=
  ⟨rfl, rfl, rfl⟩

/-- Claim C5: `encode_bool` succeeds and appends exactly one bit equal
to the encoded boolean, independently of the tag argument. -/
theorem encode_bool_single_bit (e : PerEnc.Encoder) (t t' : Tag) (v : Bool) :
    PerEnc.encode_bool e t v = .ok { output := e.output ++ [v] }
    ∧ PerEnc.encode_bool e t v = PerEnc.encode_bool e t' v
    ∧ (e.output ++ [v]).length = e.output.length + 1 :=
  ⟨rfl, rfl, by simp⟩

/-- Claim C6: the blanket fixed-width integer decode first decodes an
unconstrained arbitrary-precision integer and then narrows it; whenever
the value does not fit the target range `[tlo, thi]`, it returns the
generic custom error built through the error contract. -/
theorem int_decode_narrowing_error {σ ε : Type} (custom : String → ε)
    (decodeInteger : σ → Tag → Except ε (Int × σ)) (tlo thi : Int)
    (s s' : σ) (tag : Tag) (n : Int)
    (hdec : decodeInteger s tag = .ok (n, s'))
    (hout : ¬(tlo ≤ n ∧ n ≤ thi)) :
    intDecodeWithTag custom decodeInteger tlo thi s tag
      = .error (custom "out of range integral type conversion attempted") := by
  simp [intDecodeWithTag, hdec, hout]

/-- Witness for C6: narrowing the decoded integer 300 into the 8-bit
unsigned range `[0, 255]` fails with the custom narrowing error. -/
theorem int_decode_narrowing_error_witness :
    intDecodeWithTag (fun m => m) sampleIntDecode 0 255 () sampleTag
      = .error "out of range integral type conversion attempted" :=
  int_decode_narrowing_error (fun m => m) sampleIntDecode 0 255 () () sampleTag
    300 rfl (by decide)

/-- Claim C7: the `BTreeMap<Tag, Open>` blanket decode enters a SEQUENCE
scope and repeatedly decodes open values, inserting each under its own
discovered tag; the first failed open-value decode ends the loop and the
operation still returns the accumulated map as a success. -/
theorem btreeMap_decode_swallows_failure {σ ε : Type} (I : OpenDecoder σ ε)
    (s sub s₀ sub' : σ) (tag : Tag) (v : OpenValue) (e : ε)
    (hseq : I.decodeSequence s tag = .ok (sub, s₀))
    (hv : I.openDecode sub = .ok (v, sub'))
    (he : I.openDecode sub' = .error e) :
    btreeMapDecodeWithTag I s tag = .ok ([(v.tag, v)], s₀) := by
  have hlt := I.shrink sub v sub' hv
  obtain ⟨k, hk⟩ : ∃ k, I.size sub = k + 1 := ⟨I.size sub - 1, by omega⟩
  simp only [btreeMapDecodeWithTag, hseq, hk]
  simp [decodeOpenLoop, hv, he, tagMapInsert]

/-- Witness for C7: the demo decoder offers one open value and then
fails; the map decode returns that single binding as a success. -/
theorem btreeMap_decode_swallows_failure_witness :
    btreeMapDecodeWithTag demoOpenDecoder 1 sampleTag
      = .ok ([(⟨.contextSpecific, 0⟩, ⟨⟨.contextSpecific, 0⟩, []⟩)], 0) :=
  btreeMap_decode_swallows_failure demoOpenDecoder 1 1 0 0 sampleTag
    ⟨⟨.contextSpecific, 0⟩, []⟩ () rfl rfl rfl

/-- Claim C8 (code bug): `encode_length` has an empty body, so the
encoder emits zero length-determinant bits for every count — in
particular `encode_any` writes the raw contents with no length prefix,
never a short-form or fragmented long-form determinant. -/
theorem encode_length_emits_no_bits (e : PerEnc.Encoder) (len : Nat)
    (a : PerEnc.AnyValue) :
    (PerEnc.encode_length e len).output = e.output
    ∧ PerEnc.encode_any e a
        = .ok { output := e.output ++ a.contents.flatMap PerEnc.byteToBits } :=
  ⟨rfl, rfl⟩

/-- Claim C9 (code bug): the bit-packed format's `Error::custom`
constructor does not return an error instance — its body is `todo!()`,
which panics for every message. -/
theorem error_custom_panics (msg : String) :
    PerEnc.errorCustom msg = .panic "not yet implemented" :=
  rfl

/-- Claim C10: when `peek_tag` itself returns an error, the blanket
`Option<T>` decode swallows it and returns `Ok(None)` with the decoder
state unchanged, instead of propagating the error. -/
theorem option_decode_peek_error {σ ε α : Type} (peek : σ → Except ε Tag)
    (dec : σ → Tag → Except ε (α × σ)) (s : σ) (tag : Tag) (e : ε)
    (h : peek s = .error e) :
    optionDecodeWithTag peek dec s tag = .ok (none, s) := by
  simp [optionDecodeWithTag, peekMatches, h]

/-- Witness for C10: with a unit-state decoder whose lookahead always
fails, decoding `Option<bool>` yields `Ok(None)`. -/
theorem option_decode_peek_error_witness :
    optionDecodeWithTag samplePeekErr sampleBoolDecode () sampleTag
      = .ok (none, ()) :=
  option_decode_peek_error samplePeekErr sampleBoolDecode () sampleTag () rfl

end Rasn

